import Mathlib

/-!
Verification model of `server/containers/aptrepo/makeindex.py`.

The script's core is two anchored regular expressions (`slot_regexp` for
package names, `version_regexp` for version strings), the normalizer
`parse_version`, and the per-package assembly loop in `main`.  The regular
expressions are embedded here as executable matching functions over
`List Char` that reproduce Python's backtracking semantics (`re.match` with
the `re.A` flag): ordered alternation and optional groups are encoded as
explicit first-success fallback chains, and greedy repetitions
(`[0-9]+`, `(?:\.[0-9]+)*`, `\w+`, `[a-zA-Z]*`, `\d+`, `[a-z0-9]+`) are
encoded as maximal munch, which is equivalent here because in every such
position no continuation of the pattern can consume the characters a
shorter munch would give back (the continuations start with `-`, `.`
followed by a letter, `+`, a letter, or end-of-input, never with a
character of the repeated class).  Python's `$` matches at the end of the
string or just before one trailing newline; `atEnd` reproduces that.
-/

namespace Makeindex

/-- Python `$` (without `re.M`): end of input, or just before a final newline. -/
def atEnd (cs : List Char) : Bool :=
  decide (cs = [] ∨ cs = ['\n'])

/-- Character class `[a-z0-9]` of the `local` group (`re.A`, so ASCII only). -/
def isLocalChar (c : Char) : Bool :=
  c.isLower || c.isDigit

/-- Character class `\w` under `re.A`: `[a-zA-Z0-9_]`. -/
def isWordChar (c : Char) : Bool :=
  c.isAlpha || c.isDigit || c = '_'

/-- Character class `[a-zA-Z]` (`re.A`). -/
def isAsciiAlpha (c : Char) : Bool :=
  c.isAlpha

/-- Join character runs with `'.'` separators; inverse image of the
`release`/`local` group shapes `X(\.X)*`. -/
def joinDots : List (List Char) → List Char
  | [] => []
  | [x] => x
  | x :: xs => x ++ '.' :: joinDots xs

/-- Python `str.split(sep)` for a one-character separator, on char lists:
empty segments are kept and `"".split(sep) == [""]`. -/
def pySplitCh (sep : Char) : List Char → List (List Char)
  | [] => [[]]
  | c :: r =>
    if c = sep then [] :: pySplitCh sep r
    else
      match pySplitCh sep r with
      | s :: rest => (c :: s) :: rest
      | [] => [[c]]

/-- Python `str.split(sep)` on strings. -/
def pySplit (sep : Char) (s : String) : List String :=
  (pySplitCh sep s.data).map String.mk

/-- Numeric value of a run of decimal digits. -/
def natOfDigits (cs : List Char) : Nat :=
  cs.foldl (fun a c => 10 * a + (c.toNat - 48)) 0

/-- Errors the Python code can raise while processing one version string.
`valueError` covers both `raise ValueError(...)` sites and the
`ValueError` that `int()` raises on a malformed literal; `typeError` is
`int(None)`; `indexError` is an out-of-range list subscript. -/
inductive PyErr where
  | valueError (msg : String)
  | typeError
  | indexError
deriving DecidableEq, Repr

/-- Python `int()` restricted to the plain digit-run case.  Every call site
in `parse_version` receives either `None` (handled by `pyIntOpt`) or a
regex capture drawn from `[0-9]+`, so only the digit-run case is ever
exercised on reachable inputs. -/
def pyIntStr (s : String) : Except PyErr Nat :=
  if s.data ≠ [] ∧ s.data.all Char.isDigit then
    Except.ok (natOfDigits s.data)
  else
    Except.error (PyErr.valueError ("invalid literal for int() with base 10: " ++ s))

/-- Python `int()` applied to `match.group(...)`, which is `None` when the
group did not participate: `int(None)` raises `TypeError`. -/
def pyIntOpt : Option String → Except PyErr Nat
  | none => Except.error PyErr.typeError
  | some s => pyIntStr s

/-- Truthiness of a `match.group(...)` value: `None` and `""` are falsy. -/
def truthy (o : Option String) : Bool :=
  decide (o.getD "" ≠ "")

/-- Rendering of a `match.group(...)` value inside an f-string:
`None` prints as `"None"`. -/
def pyStrOpt (o : Option String) : String :=
  o.getD "None"

/-- Python `str.rpartition(sep)` for a one-character separator, keeping the
two components the script uses: the part before the last occurrence of
`sep` and the part after it; with no occurrence, `("", s)`. -/
def pyRPartition (sep : Char) (s : String) : String × String :=
  match s.data.reverse.dropWhile (fun c => c ≠ sep) with
  | [] => ("", s)
  | _ :: headRev =>
    (String.mk headRev.reverse,
     String.mk (s.data.reverse.takeWhile (fun c => c ≠ sep)).reverse)

/-! ## The version regular expression

```
^(?P<release>[0-9]+(?:\.[0-9]+)*)
 (?P<pre>[-]?(?P<pre_l>(a|b|c|rc|alpha|beta|pre|preview))[\.]?(?P<pre_n>[0-9]+)?)?
 (?P<dev>[\.]?(?P<dev_l>dev)[\.]?(?P<dev_n>[0-9]+)?)?
 (?:\+(?P<local>[a-z0-9]+(?:[\.][a-z0-9]+)*))?$
```

The named captures the normalizer reads are collected in `VGroups`
(`dev_l` is never read so it is not stored).  The stages are written
back-to-front so that each group's attempts carry the full continuation of
the pattern, exactly like the backtracking engine. -/

/-- Captures of `version_regexp` that `parse_version` reads. -/
structure VGroups where
  release : String
  pre : Option String
  preL : Option String
  preN : Option String
  dev : Option String
  devN : Option String
  local_ : Option String
deriving DecidableEq, Repr

/-- Maximal munch of `(?:\.[0-9]+)*`, returning the digit runs and the rest.
The fuel is only a structural-recursion device; one unit per iteration and
each iteration consumes at least two characters, so the wrapper's
`cs.length` never runs out. -/
def relChunksF : Nat → List Char → List (List Char) × List Char
  | _, [] => ([], [])
  | 0, cs => ([], cs)
  | f + 1, c :: r =>
    if c = '.' then
      if r.takeWhile Char.isDigit = [] then ([], c :: r)
      else (r.takeWhile Char.isDigit :: (relChunksF f (r.dropWhile Char.isDigit)).1,
            (relChunksF f (r.dropWhile Char.isDigit)).2)
    else ([], c :: r)

/-- Maximal munch of `(?:\.[0-9]+)*`. -/
def relChunks (cs : List Char) : List (List Char) × List Char :=
  relChunksF cs.length cs

/-- Maximal munch of `(?:[\.][a-z0-9]+)*` (the `local` group's tail). -/
def locChunksF : Nat → List Char → List (List Char) × List Char
  | _, [] => ([], [])
  | 0, cs => ([], cs)
  | f + 1, c :: r =>
    if c = '.' then
      if r.takeWhile isLocalChar = [] then ([], c :: r)
      else (r.takeWhile isLocalChar :: (locChunksF f (r.dropWhile isLocalChar)).1,
            (locChunksF f (r.dropWhile isLocalChar)).2)
    else ([], c :: r)

/-- The optional group `(?:\+(?P<local>[a-z0-9]+(?:[\.][a-z0-9]+)*))?`:
the `+`-introduced dot-separated lowercase/digit segments, which must be
followed by `$`. -/
def localTry (g : VGroups) (cs : List Char) : Option VGroups :=
  match cs with
  | '+' :: r =>
    if r.takeWhile isLocalChar = [] then none
    else
      if atEnd (locChunksF (r.dropWhile isLocalChar).length (r.dropWhile isLocalChar)).2 then
        some { g with local_ := some (String.mk (joinDots (r.takeWhile isLocalChar ::
          (locChunksF (r.dropWhile isLocalChar).length (r.dropWhile isLocalChar)).1))) }
      else none
  | _ => none

/-- Ordered choice for the optional `local` group: present first, then
absent with `$` deciding. -/
def localStage (g : VGroups) (cs : List Char) : Option VGroups :=
  match localTry g cs with
  | some g' => some g'
  | none => if atEnd cs then some g else none

/-- Leaf of the `dev` group: record the captures and run the continuation
(`local?$`). -/
def devFinish (g : VGroups) (span : List Char) (dn : Option (List Char))
    (cs : List Char) : Option VGroups :=
  localStage { g with dev := some (String.mk span), devN := dn.map String.mk } cs

/-- The optional ordinal `(?P<dev_n>[0-9]+)?`: the greedy engine first tries
the maximal digit run, then omits the group. -/
def devDigits (g : VGroups) (span : List Char) (cs : List Char) : Option VGroups :=
  match (if cs.takeWhile Char.isDigit = [] then none
         else devFinish g (span ++ cs.takeWhile Char.isDigit)
                (some (cs.takeWhile Char.isDigit)) (cs.dropWhile Char.isDigit)) with
  | some g' => some g'
  | none => devFinish g span none cs

/-- The `[\.]?` between `dev` and `dev_n`: dot consumed first, then not. -/
def afterDev (g : VGroups) (span : List Char) (cs : List Char) : Option VGroups :=
  match cs with
  | '.' :: r =>
    (match devDigits g (span ++ ['.']) r with
     | some g' => some g'
     | none => devDigits g span cs)
  | _ => devDigits g span cs

/-- The literal `dev` of the `dev` group. -/
def devLit (g : VGroups) (span : List Char) (cs : List Char) : Option VGroups :=
  if ['d', 'e', 'v'].isPrefixOf cs then afterDev g (span ++ ['d', 'e', 'v']) (cs.drop 3)
  else none

/-- The leading `[\.]?` of the `dev` group: dot consumed first, then not. -/
def tryDev (g : VGroups) (cs : List Char) : Option VGroups :=
  match cs with
  | '.' :: r =>
    (match devLit g ['.'] r with
     | some g' => some g'
     | none => devLit g [] cs)
  | _ => devLit g [] cs

/-- The optional `dev` group, tried before being omitted (greedy `?`). -/
def devStage (g : VGroups) (cs : List Char) : Option VGroups :=
  match tryDev g cs with
  | some g' => some g'
  | none => localStage g cs

/-- Leaf of the `pre` group: record the captures and run the continuation
(`dev?local?$`). -/
def preFinish (g : VGroups) (hyph tag dotspan : List Char)
    (pn : Option (List Char)) (cs : List Char) : Option VGroups :=
  devStage { g with pre := some (String.mk (hyph ++ tag ++ dotspan ++ pn.getD [])),
                    preL := some (String.mk tag),
                    preN := pn.map String.mk } cs

/-- The optional ordinal `(?P<pre_n>[0-9]+)?`: maximal digit run first,
then the group omitted. -/
def preDigits (g : VGroups) (hyph tag dotspan : List Char) (cs : List Char) :
    Option VGroups :=
  match (if cs.takeWhile Char.isDigit = [] then none
         else preFinish g hyph tag dotspan (some (cs.takeWhile Char.isDigit))
                (cs.dropWhile Char.isDigit)) with
  | some g' => some g'
  | none => preFinish g hyph tag dotspan none cs

/-- The `[\.]?` between `pre_l` and `pre_n`: dot consumed first, then not. -/
def afterTag (g : VGroups) (hyph tag : List Char) (cs : List Char) : Option VGroups :=
  match cs with
  | '.' :: r =>
    (match preDigits g hyph tag ['.'] r with
     | some g' => some g'
     | none => preDigits g hyph tag [] cs)
  | _ => preDigits g hyph tag [] cs

/-- One alternative of `(?P<pre_l>(a|b|c|rc|alpha|beta|pre|preview))`. -/
def tryTag (g : VGroups) (hyph tag : List Char) (cs : List Char) : Option VGroups :=
  if tag.isPrefixOf cs then afterTag g hyph tag (cs.drop tag.length)
  else none

/-- The stage-tag alternation, in the source's order. -/
def tagList : List (List Char) :=
  [['a'], ['b'], ['c'], ['r', 'c'], ['a', 'l', 'p', 'h', 'a'],
   ['b', 'e', 't', 'a'], ['p', 'r', 'e'], ['p', 'r', 'e', 'v', 'i', 'e', 'w']]

/-- Ordered alternation: the first alternative whose full continuation
succeeds wins, exactly as in the backtracking engine. -/
def tryTags (g : VGroups) (hyph : List Char) (tags : List (List Char))
    (cs : List Char) : Option VGroups :=
  match tags with
  | [] => none
  | t :: rest =>
    match tryTag g hyph t cs with
    | some g' => some g'
    | none => tryTags g hyph rest cs

/-- The leading `[-]?` of the `pre` group: hyphen consumed first, then not. -/
def tryPre (g : VGroups) (cs : List Char) : Option VGroups :=
  match cs with
  | '-' :: r =>
    (match tryTags g ['-'] tagList r with
     | some g' => some g'
     | none => tryTags g [] tagList cs)
  | _ => tryTags g [] tagList cs

/-- The optional `pre` group, tried before being omitted (greedy `?`). -/
def preStage (g : VGroups) (cs : List Char) : Option VGroups :=
  match tryPre g cs with
  | some g' => some g'
  | none => devStage g cs

/-- The mandatory `release` group `[0-9]+(?:\.[0-9]+)*` (maximal munch),
then the rest of the pattern. -/
def matchRelease (cs : List Char) : Option VGroups :=
  if cs.takeWhile Char.isDigit = [] then none
  else
    preStage { release := String.mk (joinDots (cs.takeWhile Char.isDigit ::
                 (relChunks (cs.dropWhile Char.isDigit)).1)),
               pre := none, preL := none, preN := none, dev := none, devN := none,
               local_ := none }
      (relChunks (cs.dropWhile Char.isDigit)).2

/-- `version_regexp.match(ver)`: `some` of the named captures on a match,
`none` otherwise. -/
def versionMatch (s : String) : Option VGroups :=
  matchRelease s.data

/-! ## `parse_version` -/

/-- The `Version` TypedDict of the script. -/
structure Version where
  major : Nat
  minor : Nat
  patch : Nat
  prerelease : Option String
  prerelease_no : Nat
  metadata : List String
deriving DecidableEq, Repr

/-- Canonical stage for a matched `pre_l` tag; `none` means the final
`raise ValueError('cannot determine release stage ...')` branch. -/
def stageOf (t : String) : Option String :=
  if t = "a" ∨ t = "alpha" then some "alpha"
  else if t = "b" ∨ t = "beta" then some "beta"
  else if t = "c" ∨ t = "rc" then some "rc"
  else none

/-- The list comprehension `[int(r) for r in v.group('release').split('.')]`:
elements converted left to right, the first failure propagating. -/
def intList : List String → Except PyErr (List Nat)
  | [] => Except.ok []
  | r :: rest =>
    match pyIntStr r with
    | Except.error e => Except.error e
    | Except.ok n =>
      match intList rest with
      | Except.error e => Except.error e
      | Except.ok ns => Except.ok (n :: ns)

/-- The branch of `parse_version` on `v.group('pre')` / `v.group('dev')`:
it computes the prerelease stage, the prerelease ordinal and the
synthesized dev-marker metadata (raising the defensive stage error for an
unrecognized tag and `TypeError` via `int(None)` for a missing ordinal). -/
def stageBranch (ver : String) (v : VGroups) :
    Except PyErr (Option String × Nat × List String) :=
  if truthy v.pre then
    match stageOf (v.preL.getD "") with
    | none =>
      Except.error (PyErr.valueError ("cannot determine release stage from " ++ ver))
    | some st =>
      match pyIntOpt v.preN with
      | Except.error e => Except.error e
      | Except.ok n =>
        Except.ok (some st, n,
          if truthy v.dev then ["dev" ++ pyStrOpt v.devN] else ([] : List String))
  else if truthy v.dev then
    match pyIntOpt v.devN with
    | Except.error e => Except.error e
    | Except.ok n => Except.ok (some "dev", n, ([] : List String))
  else Except.ok (none, 0, ([] : List String))

/-- `parse_version` from the script, continued: branch on the groups, then
local metadata, release conversion, and record assembly. -/
def parse_version (ver : String) : Except PyErr Version :=
  match versionMatch ver with
  | none => Except.error (PyErr.valueError ("cannot parse version: " ++ ver))
  | some v =>
    match stageBranch ver v with
    | Except.error e => Except.error e
    | Except.ok (pr, pn, md) =>
      match intList (pySplit '.' v.release) with
      | Except.error e => Except.error e
      | Except.ok release =>
        match release.get? 0 with
        | none => Except.error PyErr.indexError
        | some major =>
          match release.get? 1 with
          | none => Except.error PyErr.indexError
          | some minor =>
            Except.ok
              { major := major, minor := minor,
                patch := if release.length = 3 then release.getD 2 0 else 0,
                prerelease := pr, prerelease_no := pn,
                metadata := md ++ (if truthy v.local_ then pySplit '.' (v.local_.getD "")
                                   else []) }

/-! ## The slot regular expression

```
^(\w+(?:-[a-zA-Z]*)*?)(?:-(\d+(?:-(?:alpha|beta|rc)\d+)?(?:-dev\d+)?))?$
```

Group 1 is the basename, group 2 the optional slot.  The inner star of
group 1 is lazy, so the engine first tries to finish the pattern at the
current position (group 2 present, then absent, then `$`) before consuming
another `-[a-zA-Z]*` block. -/

/-- Match `tag` followed by `\d+` (maximal), returning consumed and rest. -/
def slotTagDigits (tag : List Char) (cs : List Char) :
    Option (List Char × List Char) :=
  if tag.isPrefixOf cs then
    if (cs.drop tag.length).takeWhile Char.isDigit = [] then none
    else some (tag ++ (cs.drop tag.length).takeWhile Char.isDigit,
               (cs.drop tag.length).dropWhile Char.isDigit)
  else none

/-- Final `$` of the slot pattern. -/
def slotEnd (span cs : List Char) : Option (List Char) :=
  if atEnd cs then some span else none

/-- The optional `(?:-dev\d+)?` of group 2, then `$`: present first. -/
def slotY (span cs : List Char) : Option (List Char) :=
  match cs with
  | '-' :: r =>
    (match slotTagDigits ['d', 'e', 'v'] r with
     | some p => (match slotEnd (span ++ '-' :: p.1) p.2 with
                  | some s => some s
                  | none => slotEnd span cs)
     | none => slotEnd span cs)
  | _ => slotEnd span cs

/-- The alternation `(?:alpha|beta|rc)\d+`; the three alternatives start
with distinct letters, so at most one can match at a given position. -/
def slotXalts (r : List Char) : Option (List Char × List Char) :=
  match slotTagDigits ['a', 'l', 'p', 'h', 'a'] r with
  | some p => some p
  | none =>
    match slotTagDigits ['b', 'e', 't', 'a'] r with
    | some p => some p
    | none => slotTagDigits ['r', 'c'] r

/-- The optional `(?:-(?:alpha|beta|rc)\d+)?` of group 2: present first. -/
def slotX (span cs : List Char) : Option (List Char) :=
  match cs with
  | '-' :: r =>
    (match slotXalts r with
     | some p => (match slotY (span ++ '-' :: p.1) p.2 with
                  | some s => some s
                  | none => slotY span cs)
     | none => slotY span cs)
  | _ => slotY span cs

/-- Group 2 after its introducing `-`: `\d+(?:-(?:alpha|beta|rc)\d+)?(?:-dev\d+)?`
followed by `$`; returns the captured group-2 span. -/
def slotC (cs : List Char) : Option (List Char) :=
  if cs.takeWhile Char.isDigit = [] then none
  else slotX (cs.takeWhile Char.isDigit) (cs.dropWhile Char.isDigit)

/-- Group 2 with its introducing `-` at the current position. -/
def slotGrp2 (acc cs : List Char) : Option (String × Option String) :=
  match cs with
  | '-' :: r => (slotC r).map (fun sl => (String.mk acc, some (String.mk sl)))
  | _ => none

/-- Attempt to finish the pattern at the current position: group 2 present
(`-` + `slotC`, which includes `$`) first, then group 2 absent with `$`. -/
def slotStop (acc cs : List Char) : Option (String × Option String) :=
  match slotGrp2 acc cs with
  | some res => some res
  | none => if atEnd cs then some (String.mk acc, none) else none

/-- After the initial `\w+`: the lazy `(?:-[a-zA-Z]*)*?` with the rest of
the pattern.  At each position the engine first tries to finish
(`slotStop`), and only then consumes one more `-[a-zA-Z]*` block into
group 1.  The fuel decreases once per block, each of which consumes at
least the `-`, so the wrapper's `cs.length` suffices. -/
def slotFinF : Nat → List Char → List Char → Option (String × Option String)
  | 0, acc, cs => slotStop acc cs
  | f + 1, acc, cs =>
    match slotStop acc cs with
    | some res => some res
    | none =>
      match cs with
      | '-' :: r =>
        slotFinF f (acc ++ '-' :: r.takeWhile isAsciiAlpha)
          (r.dropWhile isAsciiAlpha)
      | _ => none

/-- `slot_regexp.match(name)`: `some (group1, group2)` on a match. -/
def slotMatch (s : String) : Option (String × Option String) :=
  if s.data.takeWhile isWordChar = [] then none
  else slotFinF s.data.length (s.data.takeWhile isWordChar)
         (s.data.dropWhile isWordChar)

/-- The name-splitting block of `main`: on a match, groups 1 and 2; on a
failed match, a printed diagnostic (the Boolean) and the fallback
`basename = name`, `slot = None`. -/
def splitName (name : String) : String × Option String × Bool :=
  match slotMatch name with
  | none => (name, none, true)
  | some (b, sl) => (b, sl, false)

/-! ## The per-package record of `main` -/

/-- One element of the output index. -/
structure PackageIndexEntry where
  basename : String
  slot : Option String
  name : String
  version : String
  parsed_version : Version
  revision : String
  architecture : String
  installref : String
deriving DecidableEq, Repr

/-- The body of the package loop in `main`, for one raw
`(architecture, package, version)` triple: split the version on the last
`-`, split the name, rewrite `amd64` to `x86_64`, parse the release
version (whose failure propagates) and assemble the record. -/
def buildEntry (arch pkgname pkgver : String) : Except PyErr PackageIndexEntry :=
  match parse_version (pyRPartition '-' pkgver).1 with
  | Except.error e => Except.error e
  | Except.ok pv =>
    Except.ok
      { basename := (splitName pkgname).1, slot := (splitName pkgname).2.1,
        name := pkgname, version := (pyRPartition '-' pkgver).1,
        parsed_version := pv, revision := (pyRPartition '-' pkgver).2,
        architecture := if arch = "amd64" then "x86_64" else arch,
        installref := pkgname ++ "=" ++ (pyRPartition '-' pkgver).1 ++ "-"
          ++ (pyRPartition '-' pkgver).2 }

/-! ## Generic list and string helpers -/

theorem takeWhile_all {p : Char → Bool} :
    ∀ {l : List Char}, l.all p = true → l.takeWhile p = l := by
  intro l h
  induction l with
  | nil => rfl
  | cons c r ih =>
    simp only [List.all_cons, Bool.and_eq_true] at h
    simp [List.takeWhile_cons, h.1, ih h.2]

theorem dropWhile_all {p : Char → Bool} :
    ∀ {l : List Char}, l.all p = true → l.dropWhile p = [] := by
  intro l h
  induction l with
  | nil => rfl
  | cons c r ih =>
    simp only [List.all_cons, Bool.and_eq_true] at h
    simp [List.dropWhile_cons, h.1, ih h.2]

theorem takeWhile_append_all {p : Char → Bool} {l r : List Char}
    (h : l.all p = true) : (l ++ r).takeWhile p = l ++ r.takeWhile p := by
  induction l with
  | nil => rfl
  | cons c t ih =>
    simp only [List.all_cons, Bool.and_eq_true] at h
    simp [List.takeWhile_cons, h.1, ih h.2]

theorem dropWhile_append_all {p : Char → Bool} {l r : List Char}
    (h : l.all p = true) : (l ++ r).dropWhile p = r.dropWhile p := by
  induction l with
  | nil => rfl
  | cons c t ih =>
    simp only [List.all_cons, Bool.and_eq_true] at h
    simp [List.dropWhile_cons, h.1, ih h.2]

theorem data_append (s t : String) : (s ++ t).data = s.data ++ t.data := rfl

theorem string_mk_data (s : String) : String.mk s.data = s := rfl

theorem string_eq_of_data {s t : String} (h : s.data = t.data) : s = t := by
  cases s; cases t; exact congrArg String.mk h

/-- The first character `dropWhile` leaves behind falsifies the predicate. -/
theorem dropWhile_head_false {p : Char → Bool} :
    ∀ {l : List Char} {c : Char} {r : List Char},
      l.dropWhile p = c :: r → p c = false := by
  intro l
  induction l with
  | nil => intro c r h; exact absurd h (by simp)
  | cons a t ih =>
    intro c r h
    rw [List.dropWhile_cons] at h
    by_cases hp : p a = true
    · rw [if_pos hp] at h
      exact ih h
    · rw [if_neg hp] at h
      injection h with h1 _
      subst h1
      exact Bool.eq_false_iff.mpr hp

/-- Two string appends with different first characters are different. -/
theorem append_ne_of_head_ne {p q a b : String} {c d : Char} {pt qt : List Char}
    (hp : p.data = c :: pt) (hq : q.data = d :: qt) (h : c ≠ d) :
    p ++ a ≠ q ++ b := by
  intro he
  have : (p ++ a).data = (q ++ b).data := by rw [he]
  rw [data_append, data_append, hp, hq] at this
  exact h (by injection this)

/-- Two string appends of a common tail with prefixes of different lengths
are different. -/
theorem append_ne_of_length_ne {p q s : String} (h : p.length ≠ q.length) :
    p ++ s ≠ q ++ s := by
  intro he
  apply h
  have hl : (p ++ s).length = (q ++ s).length := by rw [he]
  simp only [String.length_append] at hl
  omega

/-! ## `pyRPartition` characterization (claim C9) -/

theorem pyRPartition_not_mem {s : String} (h : ¬ '-' ∈ s.data) :
    pyRPartition '-' s = ("", s) := by
  have hall : s.data.reverse.all (fun c => decide (c ≠ '-')) = true := by
    simp only [List.all_eq_true, List.mem_reverse, decide_eq_true_eq]
    intro c hc hcon
    exact h (hcon ▸ hc)
  unfold pyRPartition
  rw [dropWhile_all hall]

theorem pyRPartition_mem {s : String} (h : '-' ∈ s.data) :
    (pyRPartition '-' s).1 ++ "-" ++ (pyRPartition '-' s).2 = s ∧
      ¬ '-' ∈ (pyRPartition '-' s).2.data := by
  have hmem : '-' ∈ s.data.reverse := by simpa using h
  have hdw : s.data.reverse.dropWhile (fun c => decide (c ≠ '-')) ≠ [] := by
    intro hnil
    have hsp := List.takeWhile_append_dropWhile (p := fun c => decide (c ≠ '-'))
      (l := s.data.reverse)
    rw [hnil, List.append_nil] at hsp
    have hne : ∀ c ∈ s.data.reverse, c ≠ '-' := by
      intro c hc
      have := List.mem_takeWhile_imp (hsp ▸ hc)
      simpa using this
    exact hne '-' hmem rfl
  rcases hrest : s.data.reverse.dropWhile (fun c => decide (c ≠ '-'))
    with _ | ⟨c, headRev⟩
  · exact absurd hrest hdw
  · have hc : c = '-' := by
      have := dropWhile_head_false hrest
      simpa using this
    subst hc
    have hres : pyRPartition '-' s =
        (String.mk headRev.reverse,
         String.mk (s.data.reverse.takeWhile (fun c => decide (c ≠ '-'))).reverse) := by
      unfold pyRPartition
      rw [hrest]
    rw [hres]
    constructor
    · apply string_eq_of_data
      rw [data_append, data_append]
      have hsplit := List.takeWhile_append_dropWhile (p := fun c => decide (c ≠ '-'))
        (l := s.data.reverse)
      rw [hrest] at hsplit
      calc headRev.reverse ++ "-".data
            ++ (s.data.reverse.takeWhile (fun c => decide (c ≠ '-'))).reverse
          = (s.data.reverse.takeWhile (fun c => decide (c ≠ '-'))
              ++ '-' :: headRev).reverse := by
            show headRev.reverse ++ ['-'] ++ _ = _
            simp [List.reverse_append]
        _ = s.data.reverse.reverse := by rw [hsplit]
        _ = s.data := by simp
    · intro hmem2
      simp only at hmem2
      rw [List.mem_reverse] at hmem2
      have := List.mem_takeWhile_imp hmem2
      simp at this

/-- C9: the version-with-revision string is split at the last `-`
(right-partition semantics): the revision tail contains no `-` and the
split re-concatenates to the input; with no `-` at all the release version
is empty and the whole string is the revision.  `buildEntry` uses exactly
this split for the `version` and `revision` fields. -/
theorem C9_rpartition :
    (∀ s : String,
      (¬ '-' ∈ s.data → pyRPartition '-' s = ("", s)) ∧
      ('-' ∈ s.data →
        (pyRPartition '-' s).1 ++ "-" ++ (pyRPartition '-' s).2 = s ∧
          ¬ '-' ∈ (pyRPartition '-' s).2.data)) ∧
    (∀ a n v e, buildEntry a n v = Except.ok e →
      e.version = (pyRPartition '-' v).1 ∧ e.revision = (pyRPartition '-' v).2) := by
  constructor
  · intro s
    exact ⟨pyRPartition_not_mem, pyRPartition_mem⟩
  · intro a n v e h
    unfold buildEntry at h
    rcases hp : parse_version (pyRPartition '-' v).1 with e' | pv
    · rw [hp] at h; exact absurd h (by simp)
    · rw [hp] at h
      injection h with h
      subst h
      exact ⟨rfl, rfl⟩

/-- C9 witness at a concrete input. -/
theorem C9_rpartition_witness :
    (pyRPartition '-' "2.0.0-1").1 ++ "-" ++ (pyRPartition '-' "2.0.0-1").2
        = "2.0.0-1" ∧
      ¬ '-' ∈ (pyRPartition '-' "2.0.0-1").2.data :=
  (C9_rpartition.1 "2.0.0-1").2 (by decide)

/-- C8: for every entry `buildEntry` produces, reconstructing
`<name>=<version>-<revision>` from its fields equals its `installref`. -/
theorem C8_installref_roundtrip :
    ∀ a n v e, buildEntry a n v = Except.ok e →
      e.name ++ "=" ++ e.version ++ "-" ++ e.revision = e.installref := by
  intro a n v e h
  unfold buildEntry at h
  rcases hp : parse_version (pyRPartition '-' v).1 with e' | pv
  · rw [hp] at h; exact absurd h (by simp)
  · rw [hp] at h
    injection h with h
    subst h
    rfl

/-- C8 witness at a concrete input. -/
theorem C8_installref_roundtrip_witness :
    ("foo-1" : String) ++ "=" ++ "2.0.0" ++ "-" ++ "1" = "foo-1=2.0.0-1" :=
  C8_installref_roundtrip "amd64" "foo-1" "2.0.0-1"
    { basename := "foo", slot := some "1", name := "foo-1", version := "2.0.0",
      parsed_version := { major := 2, minor := 0, patch := 0, prerelease := none,
                          prerelease_no := 0, metadata := [] },
      revision := "1", architecture := "x86_64", installref := "foo-1=2.0.0-1" }
    (by rfl)

/-- C7: the architecture label `amd64` is rewritten to `x86_64` and every
other label passes through unchanged, and the example triple
`("amd64", "foo-1", "2.0.0-1")` produces exactly the specified entry. -/
theorem C7_architecture :
    (∀ a n v e, buildEntry a n v = Except.ok e →
      e.architecture = (if a = "amd64" then "x86_64" else a)) ∧
    buildEntry "amd64" "foo-1" "2.0.0-1" = Except.ok
      { basename := "foo", slot := some "1", name := "foo-1", version := "2.0.0",
        parsed_version := { major := 2, minor := 0, patch := 0, prerelease := none,
                            prerelease_no := 0, metadata := [] },
        revision := "1", architecture := "x86_64", installref := "foo-1=2.0.0-1" } := by
  constructor
  · intro a n v e h
    unfold buildEntry at h
    rcases hp : parse_version (pyRPartition '-' v).1 with e' | pv
    · rw [hp] at h; exact absurd h (by simp)
    · rw [hp] at h
      injection h with h
      subst h
      rfl
  · rfl

/-- C7 witness at a concrete non-`amd64` input. -/
theorem C7_architecture_witness :
    ("arm64" : String) = (if ("arm64" : String) = "amd64" then "x86_64" else "arm64") :=
  C7_architecture.1 "arm64" "p-2" "1.0.0-3"
    { basename := "p", slot := some "2", name := "p-2", version := "1.0.0",
      parsed_version := { major := 1, minor := 0, patch := 0, prerelease := none,
                          prerelease_no := 0, metadata := [] },
      revision := "3", architecture := "arm64", installref := "p-2=1.0.0-3" }
    (by rfl)

/-! ## Span soundness of the slot matcher (claims C6 and C10) -/

theorem atEnd_iff {cs : List Char} : atEnd cs = true ↔ cs = [] ∨ cs = ['\n'] := by
  simp [atEnd]

theorem prefix_drop {tag cs : List Char} (h : tag.isPrefixOf cs = true) :
    tag ++ cs.drop tag.length = cs := by
  rcases (List.isPrefixOf_iff_prefix.mp h) with ⟨t, ht⟩
  subst ht
  rw [List.drop_left]

theorem slotTagDigits_sound {tag cs cons rest : List Char}
    (h : slotTagDigits tag cs = some (cons, rest)) : cs = cons ++ rest := by
  unfold slotTagDigits at h
  by_cases hp : tag.isPrefixOf cs = true
  · rw [if_pos hp] at h
    by_cases hd : (cs.drop tag.length).takeWhile Char.isDigit = []
    · rw [if_pos hd] at h
      exact absurd h (by simp)
    · rw [if_neg hd] at h
      injection h with h
      injection h with h1 h2
      subst h1; subst h2
      calc cs = tag ++ cs.drop tag.length := (prefix_drop hp).symm
        _ = tag ++ ((cs.drop tag.length).takeWhile Char.isDigit
              ++ (cs.drop tag.length).dropWhile Char.isDigit) := by
            rw [List.takeWhile_append_dropWhile]
        _ = tag ++ (cs.drop tag.length).takeWhile Char.isDigit
              ++ (cs.drop tag.length).dropWhile Char.isDigit := by
            rw [List.append_assoc]
  · rw [if_neg hp] at h
    exact absurd h (by simp)

theorem slotEnd_sound {span cs s : List Char} (h : slotEnd span cs = some s) :
    s = span ∧ (cs = [] ∨ cs = ['\n']) := by
  unfold slotEnd at h
  by_cases he : atEnd cs = true
  · rw [if_pos he] at h
    injection h with h
    exact ⟨h.symm, atEnd_iff.mp he⟩
  · rw [if_neg he] at h
    exact absurd h (by simp)

theorem slotY_sound {span cs s : List Char} (h : slotY span cs = some s) :
    ∃ ext tail, s = span ++ ext ∧ cs = ext ++ tail ∧ (tail = [] ∨ tail = ['\n']) := by
  unfold slotY at h
  split at h
  · next r =>
    split at h
    · next p hp =>
      split at h
      · next s' hs' =>
        injection h with h
        subst h
        rcases slotEnd_sound hs' with ⟨h1, h2⟩
        refine ⟨'-' :: p.1, p.2, h1, ?_, h2⟩
        have hp2 : slotTagDigits ['d', 'e', 'v'] r = some (p.1, p.2) := by
          simpa using hp
        simp [slotTagDigits_sound hp2]
      · rcases slotEnd_sound h with ⟨h1, h2⟩
        exact ⟨[], '-' :: r, by simp [h1], by simp, h2⟩
    · rcases slotEnd_sound h with ⟨h1, h2⟩
      exact ⟨[], '-' :: r, by simp [h1], by simp, h2⟩
  · rcases slotEnd_sound h with ⟨h1, h2⟩
    exact ⟨[], cs, by simp [h1], by simp, h2⟩

theorem slotXalts_sound {r : List Char} {p : List Char × List Char}
    (h : slotXalts r = some p) : r = p.1 ++ p.2 := by
  unfold slotXalts at h
  split at h
  · next q hq =>
    injection h with h
    subst h
    have hq2 : slotTagDigits ['a', 'l', 'p', 'h', 'a'] r = some (q.1, q.2) := by
      simpa using hq
    exact slotTagDigits_sound hq2
  · split at h
    · next q hq =>
      injection h with h
      subst h
      have hq2 : slotTagDigits ['b', 'e', 't', 'a'] r = some (q.1, q.2) := by
        simpa using hq
      exact slotTagDigits_sound hq2
    · have hp2 : slotTagDigits ['r', 'c'] r = some (p.1, p.2) := by
        simpa using h
      exact slotTagDigits_sound hp2

theorem slotX_sound {span cs s : List Char} (h : slotX span cs = some s) :
    ∃ ext tail, s = span ++ ext ∧ cs = ext ++ tail ∧ (tail = [] ∨ tail = ['\n']) := by
  unfold slotX at h
  split at h
  · next r =>
    split at h
    · next p hp =>
      split at h
      · next s' hs' =>
        injection h with h
        subst h
        rcases slotY_sound hs' with ⟨ext, tail, h1, h2, h3⟩
        refine ⟨'-' :: p.1 ++ ext, tail, by simp [h1], ?_, h3⟩
        simp only [List.cons_append, List.append_assoc, ← h2]
        simp [slotXalts_sound hp]
      · rcases slotY_sound h with ⟨ext, tail, h1, h2, h3⟩
        exact ⟨ext, tail, h1, h2, h3⟩
    · rcases slotY_sound h with ⟨ext, tail, h1, h2, h3⟩
      exact ⟨ext, tail, h1, h2, h3⟩
  · rcases slotY_sound h with ⟨ext, tail, h1, h2, h3⟩
    exact ⟨ext, tail, h1, h2, h3⟩

theorem slotC_sound {cs sl : List Char} (h : slotC cs = some sl) :
    ∃ tail, cs = sl ++ tail ∧ (tail = [] ∨ tail = ['\n']) := by
  unfold slotC at h
  by_cases hd : cs.takeWhile Char.isDigit = []
  · rw [if_pos hd] at h
    exact absurd h (by simp)
  · rw [if_neg hd] at h
    rcases slotX_sound h with ⟨ext, tail, h1, h2, h3⟩
    refine ⟨tail, ?_, h3⟩
    rw [h1]
    calc cs = cs.takeWhile Char.isDigit ++ cs.dropWhile Char.isDigit := by
          rw [List.takeWhile_append_dropWhile]
      _ = cs.takeWhile Char.isDigit ++ (ext ++ tail) := by rw [h2]
      _ = cs.takeWhile Char.isDigit ++ ext ++ tail := by rw [List.append_assoc]

/-- The characters between group 1 and `$` contributed by the optional
`-` + group 2. -/
def slotPart : Option String → List Char
  | none => []
  | some t => '-' :: t.data

theorem slotGrp2_sound {acc cs : List Char} {b : String} {sl : Option String}
    (h : slotGrp2 acc cs = some (b, sl)) :
    ∃ r slc, cs = '-' :: r ∧ slotC r = some slc ∧ b = String.mk acc ∧
      sl = some (String.mk slc) := by
  unfold slotGrp2 at h
  split at h
  · next r =>
    rcases hsc : slotC r with _ | slc
    · rw [hsc] at h
      exact absurd h (by simp)
    · rw [hsc] at h
      simp only [Option.map_some', Option.some.injEq, Prod.mk.injEq] at h
      exact ⟨r, slc, rfl, hsc, h.1.symm, h.2.symm⟩
  · exact absurd h (by simp)

theorem slotStop_sound {acc cs : List Char} {b : String} {sl : Option String}
    (h : slotStop acc cs = some (b, sl)) :
    ∃ tail, (tail = [] ∨ tail = ['\n']) ∧
      acc ++ cs = b.data ++ slotPart sl ++ tail := by
  unfold slotStop at h
  split at h
  · next res hres =>
    injection h with h
    subst h
    rcases slotGrp2_sound hres with ⟨r, slc, hcs, hsc, hb, hsl⟩
    subst hcs; subst hb; subst hsl
    rcases slotC_sound hsc with ⟨tail, h2, h3⟩
    exact ⟨tail, h3, by simp [slotPart, h2]⟩
  · by_cases he : atEnd cs = true
    · rw [if_pos he] at h
      injection h with h
      injection h with hb hsl
      subst hb; subst hsl
      exact ⟨cs, atEnd_iff.mp he, by simp [slotPart]⟩
    · rw [if_neg he] at h
      exact absurd h (by simp)

theorem slotFinF_succ (f : Nat) (acc cs : List Char) :
    slotFinF (f + 1) acc cs =
      (match slotStop acc cs with
       | some res => some res
       | none =>
         match cs with
         | '-' :: r =>
           slotFinF f (acc ++ '-' :: r.takeWhile isAsciiAlpha)
             (r.dropWhile isAsciiAlpha)
         | _ => none) := rfl

/-- Span decomposition of `slotFinF`: the input splits into group 1, the
optional `-` + group 2, and a possible trailing newline admitted by
Python's `$`. -/
theorem slotFinF_sound :
    ∀ (fuel : Nat) (acc cs : List Char) (b : String) (sl : Option String),
      slotFinF fuel acc cs = some (b, sl) →
      ∃ tail, (tail = [] ∨ tail = ['\n']) ∧
        acc ++ cs = b.data ++ slotPart sl ++ tail := by
  intro fuel
  induction fuel with
  | zero =>
    intro acc cs b sl h
    exact slotStop_sound h
  | succ f ih =>
    intro acc cs b sl h
    rw [slotFinF_succ] at h
    split at h
    · next res hres =>
      injection h with h
      subst h
      exact slotStop_sound hres
    · split at h
      · next =>
        rename_i r hstop
        rcases ih _ _ _ _ h with ⟨tail, h3, h4⟩
        refine ⟨tail, h3, ?_⟩
        calc acc ++ '-' :: r
            = acc ++ '-' :: (r.takeWhile isAsciiAlpha ++ r.dropWhile isAsciiAlpha) := by
              rw [List.takeWhile_append_dropWhile]
          _ = (acc ++ '-' :: r.takeWhile isAsciiAlpha) ++ r.dropWhile isAsciiAlpha := by
              simp
          _ = _ := h4
      · exact absurd h (by simp)

/-- C10: on the name grammar's input domain (names drawn from
`[A-Za-z0-9_-]`, per the collaborator contract), a successful
`slot_regexp` match is a faithful decomposition: with a slot,
`basename ++ "-" ++ slot` is the whole name; without one, the basename is
the whole name. -/
theorem C10_split_faithful (name : String)
    (hdom : ∀ c ∈ name.data, isWordChar c = true ∨ c = '-')
    (b : String) (sl : Option String) (h : slotMatch name = some (b, sl)) :
    (sl = none → b = name) ∧ (∀ t, sl = some t → b ++ "-" ++ t = name) := by
  unfold slotMatch at h
  by_cases hw : name.data.takeWhile isWordChar = []
  · rw [if_pos hw] at h
    exact absurd h (by simp)
  · rw [if_neg hw] at h
    rcases slotFinF_sound _ _ _ _ _ h with ⟨tail, ht, hspan⟩
    rw [List.takeWhile_append_dropWhile] at hspan
    have htail : tail = [] := by
      rcases ht with h0 | h1
      · exact h0
      · subst h1
        have hmem : '\n' ∈ name.data := by rw [hspan]; simp
        rcases hdom '\n' hmem with hw' | hh
        · exact absurd hw' (by decide)
        · exact absurd hh (by decide)
    subst htail
    rw [List.append_nil] at hspan
    constructor
    · intro hnone
      subst hnone
      apply string_eq_of_data
      simpa [slotPart] using hspan.symm
    · intro t hsome
      subst hsome
      apply string_eq_of_data
      rw [data_append, data_append, hspan]
      simp [slotPart]

/-- C10 witness at a concrete input. -/
theorem C10_split_faithful_witness :
    ("abc-def" : String) ++ "-" ++ "7" = "abc-def-7" :=
  (C10_split_faithful "abc-def-7" (by decide) "abc-def" (some "7") (by rfl)).2
    "7" rfl

/-- C6: NameSplitter is total: a grammar-matching name yields its two
groups with no diagnostic, a non-matching name yields the fallback
`(name, no slot)` with a (non-fatal) diagnostic; with the spec's examples
`"foo-bar-123"`, `"foopkg"`, and the invalid-character name `"foo!bar"`. -/
theorem C6_name_fallback :
    (∀ name b sl, slotMatch name = some (b, sl) → splitName name = (b, sl, false)) ∧
    (∀ name, slotMatch name = none → splitName name = (name, none, true)) ∧
    splitName "foo-bar-123" = ("foo-bar", some "123", false) ∧
    splitName "foopkg" = ("foopkg", none, false) ∧
    splitName "foo!bar" = ("foo!bar", none, true) := by
  refine ⟨?_, ?_, by rfl, by rfl, by rfl⟩
  · intro name b sl h
    unfold splitName
    rw [h]
  · intro name h
    unfold splitName
    rw [h]

/-- C6 witness at a concrete input. -/
theorem C6_name_fallback_witness : splitName "pkg-x-9" = ("pkg-x", some "9", false) :=
  C6_name_fallback.1 "pkg-x-9" "pkg-x" (some "9") (by rfl)

/-! ## Shape of the `pre` captures (claim C1) -/

theorem localTry_pre {g : VGroups} {cs : List Char} {g' : VGroups}
    (h : localTry g cs = some g') : g'.pre = g.pre ∧ g'.preL = g.preL := by
  unfold localTry at h
  split at h
  · split at h
    · exact absurd h (by simp)
    · split at h
      · injection h with h
        subst h
        exact ⟨rfl, rfl⟩
      · exact absurd h (by simp)
  · exact absurd h (by simp)

theorem localStage_pre {g : VGroups} {cs : List Char} {g' : VGroups}
    (h : localStage g cs = some g') : g'.pre = g.pre ∧ g'.preL = g.preL := by
  unfold localStage at h
  split at h
  · next res hres =>
    injection h with h
    subst h
    exact localTry_pre hres
  · split at h
    · injection h with h
      subst h
      exact ⟨rfl, rfl⟩
    · exact absurd h (by simp)

theorem devFinish_pre {g : VGroups} {span : List Char} {dn : Option (List Char)}
    {cs : List Char} {g' : VGroups} (h : devFinish g span dn cs = some g') :
    g'.pre = g.pre ∧ g'.preL = g.preL := by
  unfold devFinish at h
  rcases localStage_pre h with ⟨h1, h2⟩
  exact ⟨h1, h2⟩

theorem devDigits_pre {g : VGroups} {span cs : List Char} {g' : VGroups}
    (h : devDigits g span cs = some g') : g'.pre = g.pre ∧ g'.preL = g.preL := by
  unfold devDigits at h
  split at h
  · next res hres =>
    injection h with h
    subst h
    split at hres
    · exact absurd hres (by simp)
    · exact devFinish_pre hres
  · exact devFinish_pre h

theorem afterDev_pre {g : VGroups} {span cs : List Char} {g' : VGroups}
    (h : afterDev g span cs = some g') : g'.pre = g.pre ∧ g'.preL = g.preL := by
  unfold afterDev at h
  split at h
  · split at h
    · next res hres =>
      injection h with h
      subst h
      exact devDigits_pre hres
    · exact devDigits_pre h
  · exact devDigits_pre h

theorem devLit_pre {g : VGroups} {span cs : List Char} {g' : VGroups}
    (h : devLit g span cs = some g') : g'.pre = g.pre ∧ g'.preL = g.preL := by
  unfold devLit at h
  split at h
  · exact afterDev_pre h
  · exact absurd h (by simp)

theorem tryDev_pre {g : VGroups} {cs : List Char} {g' : VGroups}
    (h : tryDev g cs = some g') : g'.pre = g.pre ∧ g'.preL = g.preL := by
  unfold tryDev at h
  split at h
  · split at h
    · next res hres =>
      injection h with h
      subst h
      exact devLit_pre hres
    · exact devLit_pre h
  · exact devLit_pre h

theorem devStage_pre {g : VGroups} {cs : List Char} {g' : VGroups}
    (h : devStage g cs = some g') : g'.pre = g.pre ∧ g'.preL = g.preL := by
  unfold devStage at h
  split at h
  · next res hres =>
    injection h with h
    subst h
    exact tryDev_pre hres
  · exact localStage_pre h

theorem preFinish_preL {g : VGroups} {hyph tag dotspan : List Char}
    {pn : Option (List Char)} {cs : List Char} {g' : VGroups}
    (h : preFinish g hyph tag dotspan pn cs = some g') :
    g'.preL = some (String.mk tag) := by
  unfold preFinish at h
  rcases devStage_pre h with ⟨_, h2⟩
  exact h2

theorem preDigits_preL {g : VGroups} {hyph tag dotspan cs : List Char} {g' : VGroups}
    (h : preDigits g hyph tag dotspan cs = some g') :
    g'.preL = some (String.mk tag) := by
  unfold preDigits at h
  split at h
  · next res hres =>
    injection h with h
    subst h
    split at hres
    · exact absurd hres (by simp)
    · exact preFinish_preL hres
  · exact preFinish_preL h

theorem afterTag_preL {g : VGroups} {hyph tag cs : List Char} {g' : VGroups}
    (h : afterTag g hyph tag cs = some g') : g'.preL = some (String.mk tag) := by
  unfold afterTag at h
  split at h
  · split at h
    · next res hres =>
      injection h with h
      subst h
      exact preDigits_preL hres
    · exact preDigits_preL h
  · exact preDigits_preL h

theorem tryTag_preL {g : VGroups} {hyph tag cs : List Char} {g' : VGroups}
    (h : tryTag g hyph tag cs = some g') : g'.preL = some (String.mk tag) := by
  unfold tryTag at h
  split at h
  · exact afterTag_preL h
  · exact absurd h (by simp)

theorem tryTags_preL {g : VGroups} {hyph : List Char} :
    ∀ {tags : List (List Char)} {cs : List Char} {g' : VGroups},
      tryTags g hyph tags cs = some g' →
      ∃ t ∈ tags, g'.preL = some (String.mk t) := by
  intro tags
  induction tags with
  | nil =>
    intro cs g' h
    exact absurd h (by simp [tryTags])
  | cons t rest ih =>
    intro cs g' h
    unfold tryTags at h
    split at h
    · next res hres =>
      injection h with h
      subst h
      exact ⟨t, by simp, tryTag_preL hres⟩
    · rcases ih h with ⟨t', ht', hL⟩
      exact ⟨t', by simp [ht'], hL⟩

theorem tryPre_preL {g : VGroups} {cs : List Char} {g' : VGroups}
    (h : tryPre g cs = some g') :
    ∃ t ∈ tagList, g'.preL = some (String.mk t) := by
  unfold tryPre at h
  split at h
  · split at h
    · next res hres =>
      injection h with h
      subst h
      exact tryTags_preL hres
    · exact tryTags_preL h
  · exact tryTags_preL h

theorem preStage_preL {g : VGroups} {cs : List Char} {g' : VGroups}
    (h : preStage g cs = some g') :
    (g'.pre = g.pre ∧ g'.preL = g.preL) ∨
      ∃ t ∈ tagList, g'.preL = some (String.mk t) := by
  unfold preStage at h
  split at h
  · next res hres =>
    injection h with h
    subst h
    exact Or.inr (tryPre_preL hres)
  · exact Or.inl (devStage_pre h)

/-- Every successful match either has no `pre` group or carries a `pre_l`
capture that is literally one of the grammar's eight stage tags. -/
theorem versionMatch_preL {s : String} {g : VGroups}
    (h : versionMatch s = some g) :
    (g.pre = none ∧ g.preL = none) ∨
      ∃ t ∈ tagList, g.preL = some (String.mk t) := by
  unfold versionMatch matchRelease at h
  split at h
  · exact absurd h (by simp)
  · rcases preStage_preL h with ⟨h1, h2⟩ | hr
    · exact Or.inl ⟨h1, h2⟩
    · exact Or.inr hr

/-! ## Error analysis of `parse_version` (claims C1 and C2) -/

theorem append_ne_of_head_some_ne {p q a b : String} {c d : Char}
    (hp : p.data.head? = some c) (hq : q.data.head? = some d) (h : c ≠ d) :
    p ++ a ≠ q ++ b := by
  intro he
  have hd : p.data ++ a.data = q.data ++ b.data := by
    have h2 := congrArg String.data he
    rwa [data_append, data_append] at h2
  rcases hpd : p.data with _ | ⟨c', pt⟩
  · rw [hpd] at hp
    exact absurd hp (by simp)
  · rcases hqd : q.data with _ | ⟨d', qt⟩
    · rw [hqd] at hq
      exact absurd hq (by simp)
    · rw [hpd] at hp hd
      rw [hqd] at hq hd
      simp only [List.head?_cons, Option.some.injEq] at hp hq
      subst hp
      subst hq
      simp only [List.cons_append] at hd
      injection hd with h1 _
      exact h h1

theorem pyIntStr_error {x : String} {e : PyErr} (h : pyIntStr x = Except.error e) :
    e = PyErr.valueError ("invalid literal for int() with base 10: " ++ x) := by
  unfold pyIntStr at h
  split at h
  · exact absurd h (by simp)
  · injection h with h
    exact h.symm

theorem pyIntOpt_error {o : Option String} {e : PyErr}
    (h : pyIntOpt o = Except.error e) :
    e = PyErr.typeError ∨
      ∃ x, e = PyErr.valueError ("invalid literal for int() with base 10: " ++ x) := by
  rcases o with _ | x
  · simp only [pyIntOpt] at h
    injection h with h
    exact Or.inl h.symm
  · exact Or.inr ⟨x, pyIntStr_error h⟩

theorem intList_error :
    ∀ {l : List String} {e : PyErr}, intList l = Except.error e →
      ∃ x ∈ l, pyIntStr x = Except.error e := by
  intro l
  induction l with
  | nil =>
    intro e h
    exact absurd h (by simp [intList])
  | cons x rest ih =>
    intro e h
    unfold intList at h
    split at h
    · next e' he' =>
      injection h with h
      subst h
      exact ⟨x, by simp, he'⟩
    · split at h
      · next e' he' =>
        injection h with h
        subst h
        rcases ih he' with ⟨y, hy, hpy⟩
        exact ⟨y, by simp [hy], hpy⟩
      · exact absurd h (by simp)

/-- Every error a matched version string can produce: the stage check
(with its guards), `int(None)`, a missing release segment, or a malformed
`int()` literal. -/
theorem parse_version_error_cases {s : String} {g : VGroups} {X : PyErr}
    (h : versionMatch s = some g) (hX : parse_version s = Except.error X) :
    (truthy g.pre = true ∧ stageOf (g.preL.getD "") = none ∧
      X = PyErr.valueError ("cannot determine release stage from " ++ s)) ∨
    X = PyErr.typeError ∨ X = PyErr.indexError ∨
    ∃ x, X = PyErr.valueError ("invalid literal for int() with base 10: " ++ x) := by
  simp only [parse_version, h] at hX
  split at hX
  · next e heq =>
    injection hX with hX
    subst hX
    unfold stageBranch at heq
    split at heq
    · next hpre =>
      split at heq
      · next hst =>
        injection heq with heq
        exact Or.inl ⟨hpre, hst, heq.symm⟩
      · split at heq
        · next e' he' =>
          injection heq with heq
          subst heq
          rcases pyIntOpt_error he' with h1 | ⟨x, h2⟩
          · exact Or.inr (Or.inl h1)
          · exact Or.inr (Or.inr (Or.inr ⟨x, h2⟩))
        · exact absurd heq (by simp)
    · split at heq
      · split at heq
        · next e' he' =>
          injection heq with heq
          subst heq
          rcases pyIntOpt_error he' with h1 | ⟨x, h2⟩
          · exact Or.inr (Or.inl h1)
          · exact Or.inr (Or.inr (Or.inr ⟨x, h2⟩))
        · exact absurd heq (by simp)
      · exact absurd heq (by simp)
  · next pr pn md heq =>
    split at hX
    · next e2 heq2 =>
      injection hX with hX
      subst hX
      rcases intList_error heq2 with ⟨x, _, hpx⟩
      exact Or.inr (Or.inr (Or.inr ⟨x, pyIntStr_error hpx⟩))
    · split at hX
      · injection hX with hX
        exact Or.inr (Or.inr (Or.inl hX.symm))
      · split at hX
        · injection hX with hX
          exact Or.inr (Or.inr (Or.inl hX.symm))
        · exact absurd hX (by simp)

/-- When the `pre` group matched and the stage tag is unrecognized,
`parse_version` raises exactly the defensive stage error. -/
theorem parse_version_stage_error {s : String} {g : VGroups}
    (h : versionMatch s = some g) (hp : truthy g.pre = true)
    (hst : stageOf (g.preL.getD "") = none) :
    parse_version s =
      Except.error (PyErr.valueError ("cannot determine release stage from " ++ s)) := by
  simp only [parse_version, stageBranch, h, hp, hst, if_true]

/-- C1 (amended): for every grammar-matching version string with a
pre-release group, the captured stage tag is one of the grammar's eight
spellings `a|b|c|rc|alpha|beta|pre|preview`; the first six are recognized
and the defensive stage-error branch is then not taken, but the branch is
reachable: it is taken exactly when the tag is `pre` or `preview`. -/
theorem C1_stage_tags (s : String) (g : VGroups) (h : versionMatch s = some g)
    (hp : truthy g.pre = true) :
    ∃ t, g.preL = some t ∧
      t ∈ (["a", "b", "c", "rc", "alpha", "beta", "pre", "preview"] : List String) ∧
      (parse_version s =
          Except.error (PyErr.valueError ("cannot determine release stage from " ++ s))
        ↔ (t = "pre" ∨ t = "preview")) := by
  rcases versionMatch_preL h with ⟨h1, _⟩ | ⟨t', ht', hL⟩
  · rw [h1] at hp
    exact absurd hp (by decide)
  · refine ⟨String.mk t', hL, ?_, ?_, ?_⟩
    · fin_cases ht' <;> decide
    · intro hcon
      rcases parse_version_error_cases h hcon with ⟨_, hst, _⟩ | hX | hX | ⟨x, hX⟩
      · rw [hL] at hst
        simp only [Option.getD_some] at hst
        fin_cases ht'
        case _ => exact absurd hst (by decide)
        case _ => exact absurd hst (by decide)
        case _ => exact absurd hst (by decide)
        case _ => exact absurd hst (by decide)
        case _ => exact absurd hst (by decide)
        case _ => exact absurd hst (by decide)
        case _ => exact Or.inl (by decide)
        case _ => exact Or.inr (by decide)
      · exact absurd hX (by simp)
      · exact absurd hX (by simp)
      · injection hX with hX
        exact absurd hX (by
          intro hX
          exact append_ne_of_head_some_ne (p := "cannot determine release stage from ")
            (q := "invalid literal for int() with base 10: ") (c := 'c') (d := 'i')
            (by decide) (by decide) (by decide) hX)
    · intro ht
      apply parse_version_stage_error h hp
      rw [hL]
      simp only [Option.getD_some]
      rcases ht with h' | h' <;> rw [h'] <;> decide

/-- C1 counterexample (refuting the claim as stated): `"1.2.3pre1"` matches
the grammar, its pre-release group is present, its stage tag `"pre"` is not
one of the spellings recognized as alpha, beta, or rc, and `parse_version`
does take the supposedly unreachable error branch. -/
theorem C1_stage_tags_counterexample :
    versionMatch "1.2.3pre1" =
      some { release := "1.2.3", pre := some "pre1", preL := some "pre",
             preN := some "1", dev := none, devN := none, local_ := none } ∧
    truthy (some "pre1") = true ∧
    stageOf "pre" = none ∧
    parse_version "1.2.3pre1" =
      Except.error (PyErr.valueError "cannot determine release stage from 1.2.3pre1") :=
  ⟨by rfl, by decide, by decide, by rfl⟩

/-- C1 witness at a concrete recognized-tag input. -/
theorem C1_stage_tags_witness :
    ∃ t, (some "b" : Option String) = some t ∧
      t ∈ (["a", "b", "c", "rc", "alpha", "beta", "pre", "preview"] : List String) ∧
      (parse_version "1.2.3b2" =
          Except.error
            (PyErr.valueError ("cannot determine release stage from " ++ "1.2.3b2"))
        ↔ (t = "pre" ∨ t = "preview")) :=
  C1_stage_tags "1.2.3b2"
    { release := "1.2.3", pre := some "b2", preL := some "b", preN := some "2",
      dev := none, devN := none, local_ := none }
    (by rfl) (by decide)

/-- C2 (amended): `parse_version` raises the version-parse `ValueError`
("cannot parse version: ...") exactly on the strings the grammar rejects;
on grammar-matching strings it never produces that error (though it may
fail with a different one). -/
theorem C2_parse_error_iff (s : String) :
    (versionMatch s = none →
      parse_version s =
        Except.error (PyErr.valueError ("cannot parse version: " ++ s))) ∧
    (∀ g, versionMatch s = some g →
      parse_version s ≠
        Except.error (PyErr.valueError ("cannot parse version: " ++ s))) := by
  constructor
  · intro h
    simp only [parse_version, h]
  · intro g h hcon
    rcases parse_version_error_cases h hcon with ⟨_, _, hX⟩ | hX | hX | ⟨x, hX⟩
    · injection hX with hX
      exact append_ne_of_length_ne (by decide) hX
    · exact absurd hX (by simp)
    · exact absurd hX (by simp)
    · injection hX with hX
      exact append_ne_of_head_some_ne (p := "cannot parse version: ")
        (q := "invalid literal for int() with base 10: ") (c := 'c') (d := 'i')
        (by decide) (by decide) (by decide) hX

/-- C2 counterexample (refuting the raises-iff claim as stated):
`"1.2.3a"` matches the version grammar (stage tag `a` with no ordinal),
yet `parse_version` does not return a `ParsedVersion`: it fails, and with
`int(None)`'s `TypeError`, not the version-parse error. -/
theorem C2_parse_error_iff_counterexample :
    versionMatch "1.2.3a" =
      some { release := "1.2.3", pre := some "a", preL := some "a", preN := none,
             dev := none, devN := none, local_ := none } ∧
    parse_version "1.2.3a" = Except.error PyErr.typeError :=
  ⟨by rfl, by rfl⟩

/-- C2 witness at a concrete non-matching input. -/
theorem C2_parse_error_iff_witness :
    parse_version "xyz" =
      Except.error (PyErr.valueError ("cannot parse version: " ++ "xyz")) :=
  (C2_parse_error_iff "xyz").1 (by rfl)

/-! ## Positional release mapping (claim C3) and the pre/dev asymmetry
(claim C4) -/

/-- C3: release segments map positionally: `major` and `minor` are the
first two converted segments (so a successful parse needs at least two,
and a one-segment release always fails), and `patch` is the third segment
exactly when there are three, else `0`; concretely `"1.2"` gives
`(1, 2, 0)`, `"1"` fails (`IndexError`), and `"1.2.3.4"` succeeds with
`patch = 0` despite the extra segments. -/
theorem C3_release_positional :
    (∀ s g res, versionMatch s = some g → parse_version s = Except.ok res →
      ∃ vals, intList (pySplit '.' g.release) = Except.ok vals ∧ 2 ≤ vals.length ∧
        res.major = vals.getD 0 0 ∧ res.minor = vals.getD 1 0 ∧
        res.patch = (if vals.length = 3 then vals.getD 2 0 else 0)) ∧
    (∀ s g, versionMatch s = some g → (pySplit '.' g.release).length = 1 →
      ∃ e, parse_version s = Except.error e) ∧
    parse_version "1.2" =
      Except.ok { major := 1, minor := 2, patch := 0, prerelease := none,
                  prerelease_no := 0, metadata := [] } ∧
    parse_version "1" = Except.error PyErr.indexError ∧
    parse_version "1.2.3.4" =
      Except.ok { major := 1, minor := 2, patch := 0, prerelease := none,
                  prerelease_no := 0, metadata := [] } := by
  refine ⟨?_, ?_, by rfl, by rfl, by rfl⟩
  · intro s g res h hok
    simp only [parse_version, h] at hok
    split at hok
    · exact absurd hok (by simp)
    · next pr pn md heq =>
      split at hok
      · exact absurd hok (by simp)
      · next vals hvals =>
        split at hok
        · exact absurd hok (by simp)
        · next major hmaj =>
          split at hok
          · exact absurd hok (by simp)
          · next minor hmin =>
            injection hok with hok
            subst hok
            refine ⟨vals, hvals, ?_, ?_, ?_, rfl⟩
            · rcases List.get?_eq_some.mp hmin with ⟨hlt, _⟩
              omega
            · simp [List.getD, ← List.get?_eq_getElem?, hmaj]
            · simp [List.getD, ← List.get?_eq_getElem?, hmin]
  · intro s g h hlen
    simp only [parse_version, h]
    rcases hB : stageBranch s g with e | ⟨pr, pn, md⟩
    · exact ⟨e, by simp⟩
    · rcases hsp : pySplit '.' g.release with _ | ⟨x, rest⟩
      · rw [hsp] at hlen
        simp at hlen
      · rcases rest with _ | ⟨y, r2⟩
        · rcases hpx : pyIntStr x with e | n
          · refine ⟨e, ?_⟩
            simp [hsp, intList, hpx]
          · refine ⟨PyErr.indexError, ?_⟩
            simp [hsp, intList, hpx]
        · rw [hsp] at hlen
          simp at hlen

/-- C3 witness at a concrete input with four release segments. -/
theorem C3_release_positional_witness :
    ∃ vals,
      intList (pySplit '.' (("9.8.7.6" : String))) = Except.ok vals ∧
      2 ≤ vals.length ∧
      (Version.mk 9 8 0 none 0 []).major = vals.getD 0 0 ∧
      (Version.mk 9 8 0 none 0 []).minor = vals.getD 1 0 ∧
      (Version.mk 9 8 0 none 0 []).patch =
        (if vals.length = 3 then vals.getD 2 0 else 0) :=
  C3_release_positional.1 "9.8.7.6"
    { release := "9.8.7.6", pre := none, preL := none, preN := none, dev := none,
      devN := none, local_ := none }
    (Version.mk 9 8 0 none 0 []) (by rfl) (by rfl)

theorem stageOf_ne_dev {t st : String} (h : stageOf t = some st) : st ≠ "dev" := by
  unfold stageOf at h
  split at h
  · injection h with h
    subst h
    decide
  · split at h
    · injection h with h
      subst h
      decide
    · split at h
      · injection h with h
        subst h
        decide
      · exact absurd h (by simp)

/-- C4 (amended): whenever both the pre-release and the development marker
match and `parse_version` succeeds, the primary fields come from the
pre-release marker (the canonical stage of `pre_l`, never `dev`, and the
`pre_n` ordinal), while the development segment surfaces only as the
synthesized first metadata token `dev<dev_n>`; concretely
`"1.2.3a1.dev5"` gives stage `alpha`, number `1`, metadata `["dev5"]`. -/
theorem C4_pre_dev_asymmetry :
    (∀ s g res, versionMatch s = some g → truthy g.pre = true →
      truthy g.dev = true → parse_version s = Except.ok res →
      ∃ st, stageOf (g.preL.getD "") = some st ∧ res.prerelease = some st ∧
        st ≠ "dev" ∧ pyIntOpt g.preN = Except.ok res.prerelease_no ∧
        res.metadata.head? = some ("dev" ++ pyStrOpt g.devN)) ∧
    parse_version "1.2.3a1.dev5" =
      Except.ok { major := 1, minor := 2, patch := 3, prerelease := some "alpha",
                  prerelease_no := 1, metadata := ["dev5"] } := by
  refine ⟨?_, by rfl⟩
  intro s g res h hpre hdev hok
  simp only [parse_version, h] at hok
  split at hok
  · exact absurd hok (by simp)
  · next pr pn md heq =>
    unfold stageBranch at heq
    simp only [hpre, hdev, if_true] at heq
    split at heq
    · exact absurd heq (by simp)
    · next st hst =>
      split at heq
      · exact absurd heq (by simp)
      · next n hn =>
        simp only [Except.ok.injEq, Prod.mk.injEq] at heq
        rcases heq with ⟨hpr, hpn, hmd⟩
        split at hok
        · exact absurd hok (by simp)
        · next vals hvals =>
          split at hok
          · exact absurd hok (by simp)
          · next major hmaj =>
            split at hok
            · exact absurd hok (by simp)
            · next minor hmin =>
              injection hok with hok
              subst hok
              refine ⟨st, hst, by simp [hpr], stageOf_ne_dev hst, ?_, ?_⟩
              · rw [hn, hpn]
              · rw [← hmd]
                simp

/-- C4 counterexample (refuting the claim as stated): on
`"1.2.3pre1.dev5"` both the pre-release and the development markers match,
yet `parse_version` does not set the prerelease fields from the marker: it
raises the stage error instead. -/
theorem C4_pre_dev_asymmetry_counterexample :
    versionMatch "1.2.3pre1.dev5" =
      some { release := "1.2.3", pre := some "pre1", preL := some "pre",
             preN := some "1", dev := some ".dev5", devN := some "5",
             local_ := none } ∧
    truthy (some "pre1") = true ∧ truthy (some ".dev5") = true ∧
    parse_version "1.2.3pre1.dev5" =
      Except.error
        (PyErr.valueError "cannot determine release stage from 1.2.3pre1.dev5") :=
  ⟨by rfl, by decide, by decide, by rfl⟩

/-- C4 witness at the claim's example input. -/
theorem C4_pre_dev_asymmetry_witness :
    ∃ st, stageOf ((some "a" : Option String).getD "") = some st ∧
      (Version.mk 1 2 3 (some "alpha") 1 ["dev5"]).prerelease = some st ∧
      st ≠ "dev" ∧
      pyIntOpt (some "1") =
        Except.ok (Version.mk 1 2 3 (some "alpha") 1 ["dev5"]).prerelease_no ∧
      (Version.mk 1 2 3 (some "alpha") 1 ["dev5"]).metadata.head? =
        some ("dev" ++ pyStrOpt (some "5")) :=
  C4_pre_dev_asymmetry.1 "1.2.3a1.dev5"
    { release := "1.2.3", pre := some "a1", preL := some "a", preN := some "1",
      dev := some ".dev5", devN := some "5", local_ := none }
    (Version.mk 1 2 3 (some "alpha") 1 ["dev5"])
    (by rfl) (by decide) (by decide) (by rfl)

/-! ## Plain three-segment versions (claim C5) -/

theorem relChunksF_nil (f : Nat) : relChunksF f [] = ([], []) := by
  cases f <;> rfl

theorem relChunksF_cons_dot (f : Nat) (r : List Char) :
    relChunksF (f + 1) ('.' :: r) =
      (if r.takeWhile Char.isDigit = [] then ([], '.' :: r)
       else (r.takeWhile Char.isDigit :: (relChunksF f (r.dropWhile Char.isDigit)).1,
             (relChunksF f (r.dropWhile Char.isDigit)).2)) := rfl

theorem no_dot_of_digits {l : List Char} (h : l.all Char.isDigit = true) :
    '.' ∉ l := by
  intro hm
  rw [List.all_eq_true] at h
  exact absurd (h '.' hm) (by decide)

theorem relChunks_two {y z : List Char} (hy : y ≠ []) (hyd : y.all Char.isDigit = true)
    (hz : z ≠ []) (hzd : z.all Char.isDigit = true) :
    relChunks ('.' :: (y ++ '.' :: z)) = ([y, z], []) := by
  have h1 : (y ++ '.' :: z).takeWhile Char.isDigit = y := by
    rw [takeWhile_append_all hyd]
    simp [List.takeWhile_cons]
  have h2 : (y ++ '.' :: z).dropWhile Char.isDigit = '.' :: z := by
    rw [dropWhile_append_all hyd]
    simp [List.dropWhile_cons]
  have h3 : z.takeWhile Char.isDigit = z := takeWhile_all hzd
  have h4 : z.dropWhile Char.isDigit = [] := dropWhile_all hzd
  have hlen : ('.' :: (y ++ '.' :: z)).length = (y.length + z.length) + 1 + 1 := by
    simp [List.length_append]
    omega
  unfold relChunks
  rw [hlen, relChunksF_cons_dot, h1, h2, if_neg hy, relChunksF_cons_dot, h3, h4,
    if_neg hz, relChunksF_nil]

theorem preStage_nil (g : VGroups) : preStage g [] = some g := rfl

theorem pySplitCh_append :
    ∀ {a : List Char}, '.' ∉ a →
      ∀ r, pySplitCh '.' (a ++ '.' :: r) = a :: pySplitCh '.' r := by
  intro a
  induction a with
  | nil =>
    intro _ r
    simp [pySplitCh]
  | cons c t ih =>
    intro h r
    have hc : c ≠ '.' := by
      intro hc
      exact h (by simp [hc])
    have ht : '.' ∉ t := by
      intro hm
      exact h (by simp [hm])
    rw [List.cons_append, pySplitCh, if_neg hc, ih ht r]

theorem pySplitCh_nodot :
    ∀ {a : List Char}, '.' ∉ a → a ≠ [] → pySplitCh '.' a = [a] := by
  intro a
  induction a with
  | nil =>
    intro _ ha
    exact absurd rfl ha
  | cons c t ih =>
    intro h _
    have hc : c ≠ '.' := by
      intro hc
      exact h (by simp [hc])
    have ht : '.' ∉ t := by
      intro hm
      exact h (by simp [hm])
    rcases t with _ | ⟨d, t2⟩
    · simp [pySplitCh, hc]
    · rw [pySplitCh, if_neg hc, ih ht (by simp)]

/-- C5: every plain `major.minor.patch` version string (three dot-separated
digit runs, no pre-release, dev, or local part) parses to exactly those
three integers with `prerelease = none`, `prerelease_no = 0` and empty
metadata. -/
theorem C5_plain_version (x y z : String)
    (hx : x.data ≠ []) (hxd : x.data.all Char.isDigit = true)
    (hy : y.data ≠ []) (hyd : y.data.all Char.isDigit = true)
    (hz : z.data ≠ []) (hzd : z.data.all Char.isDigit = true) :
    parse_version (x ++ "." ++ y ++ "." ++ z) =
      Except.ok { major := natOfDigits x.data, minor := natOfDigits y.data,
                  patch := natOfDigits z.data, prerelease := none,
                  prerelease_no := 0, metadata := [] } := by
  have hdata : (x ++ "." ++ y ++ "." ++ z).data
      = x.data ++ '.' :: (y.data ++ '.' :: z.data) := by
    show x.data ++ ['.'] ++ y.data ++ ['.'] ++ z.data = _
    simp
  have hmatch : versionMatch (x ++ "." ++ y ++ "." ++ z) =
      some { release := String.mk (joinDots [x.data, y.data, z.data]), pre := none,
             preL := none, preN := none, dev := none, devN := none,
             local_ := none } := by
    unfold versionMatch
    rw [hdata]
    unfold matchRelease
    have h1 : (x.data ++ '.' :: (y.data ++ '.' :: z.data)).takeWhile Char.isDigit
        = x.data := by
      rw [takeWhile_append_all hxd]
      simp [List.takeWhile_cons]
    have h2 : (x.data ++ '.' :: (y.data ++ '.' :: z.data)).dropWhile Char.isDigit
        = '.' :: (y.data ++ '.' :: z.data) := by
      rw [dropWhile_append_all hxd]
      simp [List.dropWhile_cons]
    rw [h1, h2, if_neg hx, relChunks_two hy hyd hz hzd]
    exact preStage_nil _
  have hsplit : pySplit '.' (String.mk (joinDots [x.data, y.data, z.data]))
      = [x, y, z] := by
    show (pySplitCh '.' (x.data ++ '.' :: (y.data ++ '.' :: z.data))).map String.mk
        = [x, y, z]
    rw [pySplitCh_append (no_dot_of_digits hxd),
      pySplitCh_append (no_dot_of_digits hyd),
      pySplitCh_nodot (no_dot_of_digits hzd) hz]
    simp [string_mk_data]
  have hix : pyIntStr x = Except.ok (natOfDigits x.data) := by
    unfold pyIntStr
    rw [if_pos ⟨hx, hxd⟩]
  have hiy : pyIntStr y = Except.ok (natOfDigits y.data) := by
    unfold pyIntStr
    rw [if_pos ⟨hy, hyd⟩]
  have hiz : pyIntStr z = Except.ok (natOfDigits z.data) := by
    unfold pyIntStr
    rw [if_pos ⟨hz, hzd⟩]
  have hsb : stageBranch (x ++ "." ++ y ++ "." ++ z)
      { release := String.mk (joinDots [x.data, y.data, z.data]), pre := none,
        preL := none, preN := none, dev := none, devN := none, local_ := none }
      = Except.ok (none, 0, []) := rfl
  simp only [parse_version, hmatch, hsb, hsplit, intList, hix, hiy, hiz]
  simp [List.getD, truthy]

/-- C5 witness at a concrete input. -/
theorem C5_plain_version_witness :
    parse_version ("4" ++ "." ++ "17" ++ "." ++ "205") =
      Except.ok { major := 4, minor := 17, patch := 205, prerelease := none,
                  prerelease_no := 0, metadata := [] } :=
  C5_plain_version "4" "17" "205" (by decide) (by decide) (by decide) (by decide)
    (by decide) (by decide)

end Makeindex
